import Mathlib

/-!
Verification of the tempus-fugit countdown-timer generators.

The timers map a render timestamp `t` (seconds, modelled as `ℚ`) to a
displayed countdown value, with several warp profiles (jump-and-rush,
phased acceleration, chaotic sinusoidal warp) and stateful glitch
trackers (corruption cells, color cells, animation overlays).
Randomness is modelled by explicit oracle arguments; real-valued
quantities that involve `sin` live in `ℝ`.
-/

namespace TempusFugit

/-! ## jump.py — jump-and-rush profile -/

namespace Jump

def DISPLAY_DURATION : ℚ := 150

def ACTUAL_DURATION : ℚ := 130

def JUMP_START : ℚ := 8/10

def JUMP_AMOUNT : ℚ := 15

def GLITCH_BEFORE_JUMP : ℚ := 5

def jump_time : ℚ := JUMP_START * ACTUAL_DURATION

def normal_display_time : ℚ := jump_time

def remaining_display_time : ℚ := DISPLAY_DURATION - normal_display_time - JUMP_AMOUNT

def remaining_actual_time : ℚ := ACTUAL_DURATION - jump_time

def RUSH_FACTOR : ℚ :=
  if 0 < remaining_actual_time then remaining_display_time / remaining_actual_time else 1

/-- The `visual_time` computed by `make_frame` in `jump.py`:
1:1 before the jump timestamp, then normal-phase display plus the
instant jump plus the rush-phase display. -/
def visual_time (t : ℚ) : ℚ :=
  if t < jump_time then t
  else
    normal_display_time + JUMP_AMOUNT + (t - jump_time) * RUSH_FACTOR

/-- The `remaining_time` computed by `make_frame` in `jump.py`
(before any glitch substitution): `max(0, DISPLAY_DURATION - visual_time)`. -/
def remaining_time (t : ℚ) : ℚ := max 0 (DISPLAY_DURATION - visual_time t)

end Jump

/-! ## main.py — phased-acceleration profile, parametrised by
display duration `D`, actual duration `A`, acceleration start fraction `f`. -/

namespace Accel

def accel_start_time (A f : ℚ) : ℚ := f * A

/-- `ACCEL_RATE` from `main.py`: solves `s = v0*t + 0.5*a*t^2` for `a`,
guarded by `remaining_actual_time > 0`. -/
def ACCEL_RATE (D A f : ℚ) : ℚ :=
  if 0 < A - f * A then 2 * ((D - f * A) - (A - f * A)) / ((A - f * A) ^ 2) else 0

/-- `ACCELERATION_FACTOR` from `main.py`: constant multiplier, guarded by
`remaining_actual_time > 0`. -/
def ACCELERATION_FACTOR (D A f : ℚ) : ℚ :=
  if 0 < A - f * A then (D - f * A) / (A - f * A) else 1

/-- `visual_time` from `make_frame` in `main.py`: 1:1 until the
acceleration start, then either the quadratic kinematic ramp
(`gradual = true`) or the constant-multiplier ramp. -/
def visual_time (D A f : ℚ) (gradual : Bool) (t : ℚ) : ℚ :=
  if t ≤ accel_start_time A f then t
  else
    let accel_phase_actual := t - accel_start_time A f
    if gradual then
      accel_start_time A f +
        (1 * accel_phase_actual + (1/2) * ACCEL_RATE D A f * accel_phase_actual ^ 2)
    else
      accel_start_time A f + accel_phase_actual * ACCELERATION_FACTOR D A f

/-- `remaining_time` from `make_frame` in `main.py`. -/
def remaining_time (D A f : ℚ) (gradual : Bool) (t : ℚ) : ℚ :=
  max 0 (D - visual_time D A f gradual t)

end Accel

/-! ## timer_utils.py / weird.py / festival.py — chaotic warp -/

namespace Weird

/-- `calculate_weird_time` from `timer_utils.py` (identical copies in
`weird.py` and `festival.py`): the speed multiplier at render timestamp `t`
for a video of length `duration`, a sinusoidal base overridden inside fixed
progress zones by constants (reverse, slow-motion, hyper-speed). -/
noncomputable def calculate_weird_time (t duration : ℚ) : ℝ :=
  let progress := t / duration
  if 0.12 < progress ∧ progress < 0.22 then -2
  else if 0.35 < progress ∧ progress < 0.45 then -3.5
  else if 0.68 < progress ∧ progress < 0.75 then -4
  else if 0.25 < progress ∧ progress < 0.32 then 0.15
  else if 0.52 < progress ∧ progress < 0.58 then 0.1
  else if 0.60 < progress ∧ progress < 0.66 then 5
  else if 0.82 < progress then 6
  else 1 + 1.2 * Real.sin ((progress : ℝ) * Real.pi * 3)

/-- Warp State of `weird.py` / `festival.py`: the `last_t` and
`accumulated_time` single-element containers shared with `make_frame`. -/
structure WarpState where
  last_t : ℚ
  accumulated : ℝ

/-- The warp-integration portion of `make_frame` in `weird.py`:
`dt = t - last_t; last_t = t; accumulated += dt * calculate_weird_time(t, duration)`. -/
noncomputable def warpStep (duration : ℚ) (s : WarpState) (t : ℚ) : WarpState :=
  { last_t := t,
    accumulated :=
      s.accumulated + ((t - s.last_t : ℚ) : ℝ) * calculate_weird_time t duration }

/-- `remaining_time` of `weird.py`: `max(0, min(DISPLAY_DURATION, D - accumulated))`. -/
noncomputable def weirdRemaining (D : ℚ) (acc : ℝ) : ℝ :=
  max 0 (min (D : ℝ) ((D : ℝ) - acc))

/-- Python float `%` for a positive modulus: `x - y * floor(x / y)`. -/
noncomputable def pyMod (x y : ℝ) : ℝ := x - y * ⌊x / y⌋

/-- `remaining_time` of `festival.py`: `max(0, accumulated % 600)`. -/
noncomputable def festivalRemaining (acc : ℝ) : ℝ := max 0 (pyMod acc 600)

/-- The random-jump loop of `festival.py` `make_frame`: for each scheduled
pair `(jump_t, target)`, if `last_t < jump_t <= t` then `accumulated`
is replaced by the target outright. -/
noncomputable def processJumps (sched : List (ℚ × ℚ)) (last t : ℚ) (acc : ℝ) : ℝ :=
  sched.foldl (fun a p => if last < p.1 ∧ p.1 ≤ t then (p.2 : ℝ) else a) acc

/-- The display-time update of `festival.py` `make_frame`: random jumps
first, then the Euler integration step. -/
noncomputable def festivalTimeStep (sched : List (ℚ × ℚ)) (duration : ℚ)
    (s : WarpState) (t : ℚ) : WarpState :=
  { last_t := t,
    accumulated :=
      processJumps sched s.last_t t s.accumulated +
        ((t - s.last_t : ℚ) : ℝ) * calculate_weird_time t duration }

/-- Initial Warp State of `festival.py`: `accumulated_time = [random.uniform(30, 180)]`,
`last_t = [0.0]`; the uniform draw is passed in as the oracle value `r`. -/
noncomputable def festivalInitState (r : ℚ) : WarpState :=
  { last_t := 0, accumulated := (r : ℝ) }

end Weird

/-! ## Corruption Tracker (weird.py / festival.py / jump.py)

The `corruption_state` dict maps a character position to a stored glyph
and an expiry timestamp.  Randomness (`corrupt_digit` outcomes and
`random.uniform` durations) is supplied by explicit per-call oracles. -/

namespace Corrupt

/-- Corruption state: position ↦ (stored glyph, expiry timestamp). -/
def St : Type := ℕ → Option (Char × ℚ)

/-- `corruption_state[i] = v`. -/
def update (st : St) (i : ℕ) (v : Char × ℚ) : St :=
  fun j => if j = i then some v else st j

/-- `del corruption_state[i]`. -/
def erase (st : St) (i : ℕ) : St :=
  fun j => if j = i then none else st j

/-- The fresh-corruption attempt of the loop body: `draw i c` is the
result of `corrupt_digit` for position `i`; on success store it with
expiry `t + durDraw i`, otherwise delete any stale cell and keep `c`. -/
def corruptFresh (draw : ℕ → Char → Char) (durDraw : ℕ → ℚ) (t : ℚ)
    (st : St) (i : ℕ) (c : Char) : Char × St :=
  let cc := draw i c
  if cc ≠ c then (cc, update st i (cc, t + durDraw i))
  else (c, if (st i).isSome then erase st i else st)

/-- One position of the persistent-corruption loop of `make_frame`:
reuse a live cell (`i in corruption_state and t < expiry`), otherwise
attempt a fresh corruption. -/
def corruptCell (draw : ℕ → Char → Char) (durDraw : ℕ → ℚ) (t : ℚ)
    (st : St) (i : ℕ) (c : Char) : Char × St :=
  match st i with
  | some gc =>
      if t < gc.2 then (gc.1, st)
      else corruptFresh draw durDraw t st i c
  | none => corruptFresh draw durDraw t st i c

/-- The whole corruption pass of `make_frame`: iterate `corruptCell` over
the enumerated characters of the display string, threading the state. -/
def corruptString (draw : ℕ → Char → Char) (durDraw : ℕ → ℚ) (t : ℚ) :
    ℕ → St → List Char → List Char × St
  | _, st, [] => ([], st)
  | i, st, c :: cs =>
      let r := corruptCell draw durDraw t st i c
      let rest := corruptString draw durDraw t (i + 1) r.2 cs
      (r.1 :: rest.1, rest.2)

/-- One frame call seen by the corruption tracker: its timestamp, its
randomness oracles, and the display string it renders. -/
structure FrameCall where
  t : ℚ
  draw : ℕ → Char → Char
  durDraw : ℕ → ℚ
  chars : List Char

/-- Replay a sequence of frame calls through the corruption tracker,
collecting each call's rendered characters and the final state. -/
def corruptRun (st : St) : List FrameCall → List (List Char) × St
  | [] => ([], st)
  | fc :: fcs =>
      let r := corruptString fc.draw fc.durDraw fc.t 0 st fc.chars
      let rest := corruptRun r.2 fcs
      (r.1 :: rest.1, rest.2)

end Corrupt

/-! ## Animation Overlay and schedules (festival.py) -/

namespace Anim

/-- The seven animation modes of `festival.py`. -/
inductive Mode
  | wave
  | odd_even
  | all_eights
  | segments_snake
  | lightning
  | count_up
  | spinning
  deriving DecidableEq

/-- Active Animation state: the `animation_mode`, `animation_start_time`
and `animation_duration` containers of `festival.py`. -/
structure AnimState where
  mode : Option Mode
  start : ℚ
  duration : ℚ
  deriving DecidableEq

/-- The animation-trigger loop of `make_frame`: a trigger satisfying
`last_t < anim_t <= t` starts an animation only when none is active
(`animation_mode[0] is None`); mode choice and duration come from the
call's random oracle. -/
def processAnimTriggers (animTimes : List ℚ) (cm : Mode) (cd : ℚ)
    (last t : ℚ) (st : AnimState) : AnimState :=
  animTimes.foldl
    (fun s τ =>
      if last < τ ∧ τ ≤ t ∧ s.mode = none then
        { mode := some cm, start := t, duration := cd }
      else s)
    st

/-- The expiry check that follows the trigger loop: an active animation
whose window has elapsed clears its mode (start and duration are kept). -/
def expireAnim (t : ℚ) (st : AnimState) : AnimState :=
  if st.mode.isSome ∧ t - st.start > st.duration then { st with mode := none } else st

/-- Instrumented trigger loop: the identical condition and update as
`processAnimTriggers`, additionally recording the indices of the triggers
that fired during this call. -/
def animTriggersFiredGo (cm : Mode) (cd : ℚ) (last t : ℚ) :
    ℕ → AnimState → List ℚ → AnimState × List ℕ
  | _, st, [] => (st, [])
  | i, st, τ :: τs =>
      if last < τ ∧ τ ≤ t ∧ st.mode = none then
        let rest := animTriggersFiredGo cm cd last t (i + 1)
          { mode := some cm, start := t, duration := cd } τs
        (rest.1, i :: rest.2)
      else
        let rest := animTriggersFiredGo cm cd last t (i + 1) st τs
        (rest.1, rest.2)

/-- One frame call seen by the animation scheduler: its timestamp and the
random mode/duration the oracle would supply if a trigger fires. -/
structure AnimCall where
  t : ℚ
  cm : Mode
  cd : ℚ

/-- Replay of the animation portion of successive `make_frame` calls:
per call, the trigger loop (recording fires) then the expiry check,
threading `last_t` exactly as `make_frame` does. -/
def animRun (animTimes : List ℚ) : ℚ → AnimState → List AnimCall → AnimState × List ℕ
  | _, st, [] => (st, [])
  | last, st, c :: cs =>
      let r := animTriggersFiredGo c.cm c.cd last c.t 0 st animTimes
      let st1 := expireAnim c.t r.1
      let rest := animRun animTimes c.t st1 cs
      (rest.1, r.2 ++ rest.2)

/-- The trigger-crossing test shared by the jump loop and the animation
loop of `make_frame`: `last_t < trigger <= t`. -/
def crossCount (trig : ℚ) : ℚ → List ℚ → ℕ
  | _, [] => 0
  | last, t :: ts => (if last < trig ∧ trig ≤ t then 1 else 0) + crossCount trig t ts

/-- Python float `%` on rationals: `x - y * floor(x / y)`. -/
def pyModQ (x y : ℚ) : ℚ := x - y * ⌊x / y⌋

/-- `f"{n:02d}"`: zero-pad to two digits, keeping all digits for `n ≥ 10`. -/
def padTwo (n : ℕ) : List Char :=
  if n < 10 then ['0', Nat.digitChar n] else Nat.toDigits 10 n

/-- `format_time` of `festival.py`: minutes and seconds of a non-negative
number of seconds, each zero-padded to two digits, separated by `:`. -/
def format_time (seconds : ℚ) : List Char :=
  padTwo (Int.toNat ⌊seconds / 60⌋) ++ [':'] ++ padTwo (Int.toNat ⌊pyModQ seconds 60⌋)

/-- `animate_digit_wave`: blank a cell when the phase
`(wave_progress + 0.15·i) mod 1` is at least one half; keep separators. -/
def animate_digit_wave (base : List Char) (wave_progress : ℚ) : List Char :=
  base.mapIdx fun i c =>
    if c = ':' then ':'
    else if pyModQ (wave_progress + (i : ℚ) * 0.15) 1 < 0.5 then c else ' '

/-- `animate_odd_even`: odd positions show `8` then the real digit. -/
def animate_odd_even (base : List Char) (anim_progress : ℚ) : List Char :=
  base.mapIdx fun i c =>
    if c = ':' then ':'
    else if anim_progress < 0.4 then (if i % 2 = 1 then '8' else ' ')
    else if anim_progress < 0.7 then (if i % 2 = 1 then '8' else c)
    else c

/-- The fixed 11-entry pattern table of `animate_segments_snake`. -/
def snakePatterns : List (List Char) :=
  [['-', ' ', ' ', ' ', '-'],
   ['|', '-', ' ', ' ', '-'],
   ['|', '|', ' ', ' ', '-'],
   ['|', '|', ':', ' ', '-'],
   ['|', '|', ':', '-', '|'],
   ['|', '|', ':', '|', '|'],
   ['-', '|', ':', '|', '|'],
   [' ', '-', ':', '|', '|'],
   [' ', ' ', ':', '|', '|'],
   [' ', ' ', ':', '-', '|'],
   [' ', ' ', ':', '-', ' ']]

/-- `animate_segments_snake`: pattern indexed by `int((t*3) % 11)`. -/
def animate_segments_snake (t : ℚ) : List Char :=
  snakePatterns.getD (Int.toNat ⌊pyModQ (t * 3) 11⌋) []

/-- `animate_lightning`: fixed bar glyphs at progress thresholds, the real
string from 0.6, alternating flash after 0.8. -/
def animate_lightning (anim_progress : ℚ) (base : List Char) : List Char :=
  if anim_progress < 0.2 then [' ', ' ', '|', ' ', ' ']
  else if anim_progress < 0.3 then [' ', '|', '|', ' ', ' ']
  else if anim_progress < 0.4 then ['|', '|', '|', ' ', ' ']
  else if anim_progress < 0.5 then ['|', '|', '|', ':', ' ']
  else if anim_progress < 0.6 then ['|', '|', '|', ':', '|']
  else if anim_progress < 0.8 then base
  else if Int.toNat ⌊anim_progress * 20⌋ % 2 = 0 then ['8', '8', ':', '8', '8'] else base

/-- `animate_count_up`: shows `int(anim_progress * 30)` seconds. -/
def animate_count_up (anim_progress : ℚ) : List Char :=
  format_time ((Int.toNat ⌊anim_progress * 30⌋ : ℕ) : ℚ)

/-- `animate_spinning_digits`: each non-separator cell `i` cycles
`int(anim_progress * (10 + 2i)) mod 10` while progress is below 0.7. -/
def animate_spinning_digits (anim_progress : ℚ) (base : List Char) : List Char :=
  base.mapIdx fun i c =>
    if c = ':' then ':'
    else if anim_progress < 0.7 then
      Nat.digitChar (Int.toNat ⌊anim_progress * (10 + (i : ℚ) * 2)⌋ % 10)
    else c

/-- The `all_eights` branch written inline in `festival.py` `make_frame`:
solid eights, then a left-to-right reveal of the real string. -/
def animate_all_eights (anim_progress : ℚ) (base : List Char) : List Char :=
  if anim_progress < 0.4 then ['8', '8', ':', '8', '8']
  else if anim_progress < 0.7 then
    let reveal := Int.toNat ⌊(anim_progress - 0.4) / 0.3 * (base.length : ℚ)⌋
    base.take reveal ++ List.replicate (base.length - reveal) '8'
  else base

end Anim

end TempusFugit

namespace TempusFugit

/-- C1: for the jump-and-rush profile (JUMP_START=0.8, ACTUAL_DURATION=130,
DISPLAY_DURATION=150, JUMP_AMOUNT=15), the remaining time before glitch
substitution equals `150 - t` for every `t < 104`, equals `31` at `t = 104`,
and equals `0` at `t = 130`. -/
theorem jump_remaining_profile :
    (∀ t : ℚ, t < 104 → Jump.remaining_time t = 150 - t) ∧
      Jump.remaining_time 104 = 31 ∧ Jump.remaining_time 130 = 0 := by
  have hjt : Jump.jump_time = 104 := by
    norm_num [Jump.jump_time, Jump.JUMP_START, Jump.ACTUAL_DURATION]
  have hrf : Jump.RUSH_FACTOR = 31/26 := by
    norm_num [Jump.RUSH_FACTOR, Jump.remaining_actual_time, Jump.remaining_display_time,
      Jump.normal_display_time, Jump.jump_time, Jump.JUMP_START, Jump.ACTUAL_DURATION,
      Jump.DISPLAY_DURATION, Jump.JUMP_AMOUNT]
  refine ⟨?_, ?_, ?_⟩
  · intro t ht
    have h1 : Jump.visual_time t = t := by
      rw [Jump.visual_time, hjt]
      simp [ht]
    rw [Jump.remaining_time, h1, Jump.DISPLAY_DURATION]
    have : (0:ℚ) ≤ 150 - t := by linarith
    exact max_eq_right this
  · have h1 : Jump.visual_time 104 = 119 := by
      rw [Jump.visual_time, hjt, hrf]
      norm_num [Jump.normal_display_time, Jump.jump_time, Jump.JUMP_START,
        Jump.ACTUAL_DURATION, Jump.JUMP_AMOUNT]
    rw [Jump.remaining_time, h1, Jump.DISPLAY_DURATION]
    norm_num
  · have h1 : Jump.visual_time 130 = 150 := by
      rw [Jump.visual_time, hjt, hrf]
      norm_num [Jump.normal_display_time, Jump.jump_time, Jump.JUMP_START,
        Jump.ACTUAL_DURATION, Jump.JUMP_AMOUNT]
    rw [Jump.remaining_time, h1, Jump.DISPLAY_DURATION]
    norm_num

/-- Witness for `jump_remaining_profile` at `t = 50`. -/
theorem jump_remaining_profile_witness :
    (50 : ℚ) < 104 ∧ Jump.remaining_time 50 = 150 - 50 :=
  ⟨by norm_num, jump_remaining_profile.1 50 (by norm_num)⟩

/-- C2: for the phased-acceleration profile of `main.py`, under both the
gradual (quadratic kinematic) and the constant-multiplier variants, for every
configuration with positive durations and acceleration start fraction in
`[0,1)`, the remaining time at `t = A` (the actual duration) is exactly `0`. -/
theorem accel_lands_on_zero (D A f : ℚ) (gradual : Bool)
    (hD : 0 < D) (hA : 0 < A) (hf0 : 0 ≤ f) (hf1 : f < 1) :
    Accel.remaining_time D A f gradual A = 0 := by
  have hr : 0 < A - f * A := by nlinarith
  have hne : A - f * A ≠ 0 := ne_of_gt hr
  have hbranch : ¬ A ≤ Accel.accel_start_time A f := by
    rw [Accel.accel_start_time]; linarith
  have hv : Accel.visual_time D A f gradual A = D := by
    rw [Accel.visual_time]
    rw [if_neg hbranch]
    cases gradual with
    | false =>
        simp only [Bool.false_eq_true, if_false, Accel.ACCELERATION_FACTOR,
          Accel.accel_start_time, if_pos hr]
        field_simp
    | true =>
        simp only [if_true, Accel.ACCEL_RATE, Accel.accel_start_time, if_pos hr]
        field_simp
  rw [Accel.remaining_time, hv]
  simp

/-- Helper: the jump loop leaves `accumulated` unchanged when no scheduled
jump timestamp is crossed between `last` and `t`. -/
theorem processJumps_nofire (sched : List (ℚ × ℚ)) (last t : ℚ) (acc : ℝ)
    (h : ∀ p ∈ sched, ¬(last < p.1 ∧ p.1 ≤ t)) :
    Weird.processJumps sched last t acc = acc := by
  induction sched generalizing acc with
  | nil => rfl
  | cons a l ih =>
      simp only [Weird.processJumps, List.foldl_cons]
      rw [if_neg (h a (List.mem_cons_self a l))]
      exact ih acc fun p hp => h p (List.mem_cons_of_mem a hp)

/-- Helper: the chaotic-warp speed at `t = 20` of a 60-second video is `1`
(progress `1/3` lies outside every zone and `sin π = 0`). -/
theorem calculate_weird_time_20_60 : Weird.calculate_weird_time 20 60 = 1 := by
  rw [Weird.calculate_weird_time]
  rw [if_neg (by norm_num), if_neg (by norm_num), if_neg (by norm_num),
    if_neg (by norm_num), if_neg (by norm_num), if_neg (by norm_num),
    if_neg (by norm_num)]
  have harg : (((20:ℚ) / 60 : ℚ) : ℝ) * Real.pi * 3 = Real.pi := by
    push_cast
    ring
  rw [harg, Real.sin_pi]
  ring

/-- Witness for `accel_lands_on_zero` with the shipped configuration
`D = 150, A = 110, f = 0.6`, gradual variant. -/
theorem accel_lands_on_zero_witness :
    (0:ℚ) < 150 ∧ (0:ℚ) < 110 ∧ (0:ℚ) ≤ 6/10 ∧ (6/10:ℚ) < 1 ∧
      Accel.remaining_time 150 110 (6/10) true 110 = 0 :=
  ⟨by norm_num, by norm_num, by norm_num, by norm_num,
    accel_lands_on_zero 150 110 (6/10) true (by norm_num) (by norm_num)
      (by norm_num) (by norm_num)⟩

/-- C3: the chaotic-warp speed equals the fixed zone constants inside the
named progress windows, equals the sinusoid `1 + 1.2·sin(3πp)` outside all
of them, and the festival frame update advances the accumulated display
time only by the Euler step `accumulated += dt · speed(t)` (here shown when
no scheduled jump fires; a firing jump replaces the base outright). -/
theorem weird_speed_zones_and_euler (t dur : ℚ) :
    ((0.12 < t / dur ∧ t / dur < 0.22) → Weird.calculate_weird_time t dur = -2) ∧
    ((0.35 < t / dur ∧ t / dur < 0.45) → Weird.calculate_weird_time t dur = -3.5) ∧
    ((0.68 < t / dur ∧ t / dur < 0.75) → Weird.calculate_weird_time t dur = -4) ∧
    ((0.25 < t / dur ∧ t / dur < 0.32) → Weird.calculate_weird_time t dur = 0.15) ∧
    ((0.52 < t / dur ∧ t / dur < 0.58) → Weird.calculate_weird_time t dur = 0.1) ∧
    ((0.60 < t / dur ∧ t / dur < 0.66) → Weird.calculate_weird_time t dur = 5) ∧
    (0.82 < t / dur → Weird.calculate_weird_time t dur = 6) ∧
    (¬(0.12 < t / dur ∧ t / dur < 0.22) → ¬(0.35 < t / dur ∧ t / dur < 0.45) →
      ¬(0.68 < t / dur ∧ t / dur < 0.75) → ¬(0.25 < t / dur ∧ t / dur < 0.32) →
      ¬(0.52 < t / dur ∧ t / dur < 0.58) → ¬(0.60 < t / dur ∧ t / dur < 0.66) →
      ¬(0.82 < t / dur) →
      Weird.calculate_weird_time t dur =
        1 + 1.2 * Real.sin (3 * Real.pi * ((t : ℝ) / (dur : ℝ)))) ∧
    (∀ (sched : List (ℚ × ℚ)) (s : Weird.WarpState),
      (∀ p ∈ sched, ¬(s.last_t < p.1 ∧ p.1 ≤ t)) →
      (Weird.festivalTimeStep sched dur s t).accumulated =
        s.accumulated + ((t - s.last_t : ℚ) : ℝ) * Weird.calculate_weird_time t dur) := by
  simp only [Weird.calculate_weird_time]
  refine ⟨?_, ?_, ?_, ?_, ?_, ?_, ?_, ?_, ?_⟩
  · rintro ⟨ha, hb⟩
    rw [if_pos ⟨ha, hb⟩]
  · rintro ⟨ha, hb⟩
    have n1 : ¬(0.12 < t / dur ∧ t / dur < 0.22) := by rintro ⟨-, h⟩; linarith
    rw [if_neg n1, if_pos ⟨ha, hb⟩]
  · rintro ⟨ha, hb⟩
    have n1 : ¬(0.12 < t / dur ∧ t / dur < 0.22) := by rintro ⟨-, h⟩; linarith
    have n2 : ¬(0.35 < t / dur ∧ t / dur < 0.45) := by rintro ⟨-, h⟩; linarith
    rw [if_neg n1, if_neg n2, if_pos ⟨ha, hb⟩]
  · rintro ⟨ha, hb⟩
    have n1 : ¬(0.12 < t / dur ∧ t / dur < 0.22) := by rintro ⟨-, h⟩; linarith
    have n2 : ¬(0.35 < t / dur ∧ t / dur < 0.45) := by rintro ⟨h, -⟩; linarith
    have n3 : ¬(0.68 < t / dur ∧ t / dur < 0.75) := by rintro ⟨h, -⟩; linarith
    rw [if_neg n1, if_neg n2, if_neg n3, if_pos ⟨ha, hb⟩]
  · rintro ⟨ha, hb⟩
    have n1 : ¬(0.12 < t / dur ∧ t / dur < 0.22) := by rintro ⟨-, h⟩; linarith
    have n2 : ¬(0.35 < t / dur ∧ t / dur < 0.45) := by rintro ⟨-, h⟩; linarith
    have n3 : ¬(0.68 < t / dur ∧ t / dur < 0.75) := by rintro ⟨h, -⟩; linarith
    have n4 : ¬(0.25 < t / dur ∧ t / dur < 0.32) := by rintro ⟨-, h⟩; linarith
    rw [if_neg n1, if_neg n2, if_neg n3, if_neg n4, if_pos ⟨ha, hb⟩]
  · rintro ⟨ha, hb⟩
    have n1 : ¬(0.12 < t / dur ∧ t / dur < 0.22) := by rintro ⟨-, h⟩; linarith
    have n2 : ¬(0.35 < t / dur ∧ t / dur < 0.45) := by rintro ⟨-, h⟩; linarith
    have n3 : ¬(0.68 < t / dur ∧ t / dur < 0.75) := by rintro ⟨h, -⟩; linarith
    have n4 : ¬(0.25 < t / dur ∧ t / dur < 0.32) := by rintro ⟨-, h⟩; linarith
    have n5 : ¬(0.52 < t / dur ∧ t / dur < 0.58) := by rintro ⟨-, h⟩; linarith
    rw [if_neg n1, if_neg n2, if_neg n3, if_neg n4, if_neg n5, if_pos ⟨ha, hb⟩]
  · intro ha
    have n1 : ¬(0.12 < t / dur ∧ t / dur < 0.22) := by rintro ⟨-, h⟩; linarith
    have n2 : ¬(0.35 < t / dur ∧ t / dur < 0.45) := by rintro ⟨-, h⟩; linarith
    have n3 : ¬(0.68 < t / dur ∧ t / dur < 0.75) := by rintro ⟨-, h⟩; linarith
    have n4 : ¬(0.25 < t / dur ∧ t / dur < 0.32) := by rintro ⟨-, h⟩; linarith
    have n5 : ¬(0.52 < t / dur ∧ t / dur < 0.58) := by rintro ⟨-, h⟩; linarith
    have n6 : ¬(0.60 < t / dur ∧ t / dur < 0.66) := by rintro ⟨-, h⟩; linarith
    rw [if_neg n1, if_neg n2, if_neg n3, if_neg n4, if_neg n5, if_neg n6, if_pos ha]
  · intro n1 n2 n3 n4 n5 n6 n7
    rw [if_neg n1, if_neg n2, if_neg n3, if_neg n4, if_neg n5, if_neg n6, if_neg n7]
    have harg : ((t / dur : ℚ) : ℝ) * Real.pi * 3 = 3 * Real.pi * ((t : ℝ) / (dur : ℝ)) := by
      push_cast
      ring
    rw [harg]
  · intro sched s hnf
    simp only [Weird.festivalTimeStep, Weird.calculate_weird_time]
    rw [processJumps_nofire sched s.last_t t s.accumulated hnf]

/-- Witness for `weird_speed_zones_and_euler`: the reverse zone at
progress `0.15`, the hyper zone at progress `0.9`, and the Euler step with
an empty jump schedule. -/
theorem weird_speed_zones_and_euler_witness :
    ((0.12 : ℚ) < 15 / 100 ∧ (15 : ℚ) / 100 < 0.22) ∧
      Weird.calculate_weird_time 15 100 = -2 ∧
      ((0.82 : ℚ) < 90 / 100 ∧ Weird.calculate_weird_time 90 100 = 6) ∧
      (Weird.festivalTimeStep [] 100 ⟨20, 50⟩ 30).accumulated =
        50 + (((30 : ℚ) - 20 : ℚ) : ℝ) * Weird.calculate_weird_time 30 100 := by
  refine ⟨⟨by norm_num, by norm_num⟩, ?_, ⟨by norm_num, ?_⟩, ?_⟩
  · exact (weird_speed_zones_and_euler 15 100).1 ⟨by norm_num, by norm_num⟩
  · exact (weird_speed_zones_and_euler 90 100).2.2.2.2.2.2.1 (by norm_num)
  · exact (weird_speed_zones_and_euler 30 100).2.2.2.2.2.2.2.2 [] ⟨20, 50⟩ (by simp)

/-- C9 counterexample: a frame requested at `t = 20` after a frame at
`t = 30` (out of monotonic order) does not fail: `make_frame` of `weird.py`
proceeds with the Warp State integration, producing `last_t = 20` and
`accumulated = 100 + (20 - 30) · 1 = 90`. -/
theorem weird_out_of_order_counterexample :
    (20 : ℚ) < 30 ∧ Weird.warpStep 60 ⟨30, 100⟩ 20 = ⟨20, 90⟩ := by
  refine ⟨by norm_num, ?_⟩
  simp only [Weird.warpStep, calculate_weird_time_20_60, Weird.WarpState.mk.injEq]
  refine ⟨trivial, ?_⟩
  push_cast
  norm_num

/-- C9 amended: the per-frame function of `weird.py` performs no
monotonicity check: a timestamp `t` below the previous call's timestamp is
silently integrated with negative `dt`, so (whenever the speed at `t` is
positive) the accumulated display time strictly decreases instead of the
call failing fast. -/
theorem weird_out_of_order_integrates (dur : ℚ) (s : Weird.WarpState) (t : ℚ)
    (hlt : t < s.last_t) (hsp : 0 < Weird.calculate_weird_time t dur) :
    (Weird.warpStep dur s t).last_t = t ∧
      (Weird.warpStep dur s t).accumulated < s.accumulated := by
  refine ⟨rfl, ?_⟩
  simp only [Weird.warpStep]
  have hneg : ((t - s.last_t : ℚ) : ℝ) < 0 := by
    have h : (t - s.last_t : ℚ) < 0 := by linarith
    exact_mod_cast h
  nlinarith [mul_neg_of_neg_of_pos hneg hsp]

/-- Witness for `weird_out_of_order_integrates` at `t = 20` after `t = 30`. -/
theorem weird_out_of_order_integrates_witness :
    (20 : ℚ) < 30 ∧ 0 < Weird.calculate_weird_time 20 60 ∧
      (Weird.warpStep 60 ⟨30, 100⟩ 20).last_t = 20 ∧
      (Weird.warpStep 60 ⟨30, 100⟩ 20).accumulated < 100 := by
  have hsp : 0 < Weird.calculate_weird_time 20 60 := by
    rw [calculate_weird_time_20_60]; norm_num
  have h := weird_out_of_order_integrates 60 ⟨30, 100⟩ 20 (by norm_num) hsp
  exact ⟨by norm_num, hsp, h.1, h.2⟩

/-- C10: the festival variant initialises the accumulated display time to
the uniform draw `r` from `[30, 180]` (not to a configured display
duration — the festival configuration has none), and the first frame at
`t = 0` displays exactly `r` seconds remaining. -/
theorem festival_initial_display (r : ℚ) (sched : List (ℚ × ℚ))
    (h30 : 30 ≤ r) (h180 : r ≤ 180) (hpos : ∀ p ∈ sched, 5 < p.1) :
    (Weird.festivalTimeStep sched 120 (Weird.festivalInitState r) 0).accumulated = (r : ℝ) ∧
      Weird.festivalRemaining
        (Weird.festivalTimeStep sched 120 (Weird.festivalInitState r) 0).accumulated =
        (r : ℝ) := by
  have hnf : ∀ p ∈ sched, ¬((Weird.festivalInitState r).last_t < p.1 ∧ p.1 ≤ (0 : ℚ)) := by
    intro p hp
    rintro ⟨-, hle⟩
    have h5 := hpos p hp
    linarith
  have hacc :
      (Weird.festivalTimeStep sched 120 (Weird.festivalInitState r) 0).accumulated = (r : ℝ) := by
    simp only [Weird.festivalTimeStep]
    rw [processJumps_nofire sched _ 0 _ hnf]
    simp [Weird.festivalInitState]
  refine ⟨hacc, ?_⟩
  rw [hacc, Weird.festivalRemaining, Weird.pyMod]
  have hfloor : ⌊(r : ℝ) / 600⌋ = 0 := by
    rw [Int.floor_eq_zero_iff]
    constructor
    · positivity
    · rw [div_lt_one (by norm_num : (0:ℝ) < 600)]
      have h1 : (r : ℝ) ≤ 180 := by exact_mod_cast h180
      linarith
  rw [hfloor]
  have hr0 : (0 : ℝ) ≤ (r : ℝ) := by
    have h2 : (0 : ℚ) ≤ r := by linarith
    exact_mod_cast h2
  simp
  linarith

/-- Witness for `festival_initial_display` with draw `r = 100` and one
scheduled jump at `t = 10`. -/
theorem festival_initial_display_witness :
    ((30 : ℚ) ≤ 100 ∧ (100 : ℚ) ≤ 180) ∧
      (Weird.festivalTimeStep [(10, 50)] 120 (Weird.festivalInitState 100) 0).accumulated =
        ((100 : ℚ) : ℝ) := by
  refine ⟨⟨by norm_num, by norm_num⟩, ?_⟩
  exact (festival_initial_display 100 [(10, 50)] (by norm_num) (by norm_num)
    (by intro p hp; simp only [List.mem_singleton] at hp; subst hp; norm_num)).1

/-- Helper: processing one position touches no other position's cell. -/
theorem corruptCell_apply_ne (draw : ℕ → Char → Char) (durDraw : ℕ → ℚ) (t : ℚ)
    (st : Corrupt.St) (i : ℕ) (c : Char) (j : ℕ) (hj : j ≠ i) :
    (Corrupt.corruptCell draw durDraw t st i c).2 j = st j := by
  rcases h : st i with - | gc <;>
    simp only [Corrupt.corruptCell, Corrupt.corruptFresh, h] <;>
    split_ifs <;>
    simp [Corrupt.update, Corrupt.erase, hj]

/-- Helper: a live cell (`t < expiry`) is reused verbatim and the state is
left unchanged by its own position. -/
theorem corruptCell_live (draw : ℕ → Char → Char) (durDraw : ℕ → ℚ) (t : ℚ)
    (st : Corrupt.St) (i : ℕ) (c : Char) (g : Char) (e : ℚ)
    (hcell : st i = some (g, e)) (ht : t < e) :
    Corrupt.corruptCell draw durDraw t st i c = (g, st) := by
  simp [Corrupt.corruptCell, hcell, ht]

/-- Helper: the string pass never touches positions below its start index. -/
theorem corruptString_apply_lt (draw : ℕ → Char → Char) (durDraw : ℕ → ℚ) (t : ℚ)
    (cs : List Char) :
    ∀ (start : ℕ) (st : Corrupt.St) (j : ℕ), j < start →
      (Corrupt.corruptString draw durDraw t start st cs).2 j = st j := by
  induction cs with
  | nil => intro start st j hj; rfl
  | cons c cs ih =>
      intro start st j hj
      simp only [Corrupt.corruptString]
      rw [ih (start + 1) _ j (by omega)]
      exact corruptCell_apply_ne draw durDraw t st start c j (by omega)

/-- Helper: a live cell at relative position `k` is rendered verbatim by
the string pass and survives it untouched. -/
theorem corruptString_live (draw : ℕ → Char → Char) (durDraw : ℕ → ℚ) (t : ℚ)
    (g : Char) (e : ℚ) (ht : t < e) (cs : List Char) :
    ∀ (start k : ℕ) (st : Corrupt.St),
      st (start + k) = some (g, e) → k < cs.length →
      (Corrupt.corruptString draw durDraw t start st cs).1.get? k = some g ∧
        (Corrupt.corruptString draw durDraw t start st cs).2 (start + k) = some (g, e) := by
  induction cs with
  | nil => intro start k st hc hk; simp at hk
  | cons c cs ih =>
      intro start k st hc hk
      cases k with
      | zero =>
          have hcell : st start = some (g, e) := by simpa using hc
          have hstep := corruptCell_live draw durDraw t st start c g e hcell ht
          simp only [Corrupt.corruptString, hstep]
          refine ⟨rfl, ?_⟩
          have := corruptString_apply_lt draw durDraw t cs (start + 1) st start (by omega)
          simpa using this.trans hcell
      | succ k =>
          have hne : start + (k + 1) ≠ start := by omega
          have hoth := corruptCell_apply_ne draw durDraw t st start c (start + (k + 1)) hne
          have hc2 : (Corrupt.corruptCell draw durDraw t st start c).2 (start + 1 + k) =
              some (g, e) := by
            rw [show start + 1 + k = start + (k + 1) by omega, hoth]
            exact hc
          have hrec := ih (start + 1) k _ hc2 (by simpa using hk)
          simp only [Corrupt.corruptString]
          refine ⟨by simpa using hrec.1, ?_⟩
          rw [show start + (k + 1) = start + 1 + k by omega]
          exact hrec.2

/-- C4: once a corruption cell `(g, t0+d)` is stored at position `i`, every
frame call of a non-decreasing run whose timestamp lies in `(t0, t0+d)`
renders the identical stored glyph `g` at `i` and leaves the cell intact;
only a call at `t ≥ t0+d` may evict it. -/
theorem corruption_cell_stability (i : ℕ) (g : Char) (t0 d : ℚ) (st : Corrupt.St)
    (calls : List Corrupt.FrameCall)
    (hcell : st i = some (g, t0 + d))
    (hmono : List.Chain' (fun a b : Corrupt.FrameCall => a.t ≤ b.t) calls)
    (hwin : ∀ fc ∈ calls, t0 < fc.t ∧ fc.t < t0 + d)
    (hlen : ∀ fc ∈ calls, i < fc.chars.length) :
    (∀ out ∈ (Corrupt.corruptRun st calls).1, out.get? i = some g) ∧
      (Corrupt.corruptRun st calls).2 i = some (g, t0 + d) := by
  induction calls generalizing st with
  | nil => exact ⟨by intro out hout; simp [Corrupt.corruptRun] at hout, by simpa using hcell⟩
  | cons fc fcs ih =>
      have hw := hwin fc (List.mem_cons_self fc fcs)
      have hl := hlen fc (List.mem_cons_self fc fcs)
      have h1 := corruptString_live fc.draw fc.durDraw fc.t g (t0 + d) hw.2 fc.chars
        0 i st (by simpa using hcell) hl
      have hrec := ih ((Corrupt.corruptString fc.draw fc.durDraw fc.t 0 st fc.chars).2)
        (by simpa using h1.2) hmono.tail
        (fun x hx => hwin x (List.mem_cons_of_mem fc hx))
        (fun x hx => hlen x (List.mem_cons_of_mem fc hx))
      simp only [Corrupt.corruptRun]
      constructor
      · intro out hout
        rcases List.mem_cons.mp hout with h | h
        · rw [h]; exact h1.1
        · exact hrec.1 out h
      · exact hrec.2

/-- Witness for `corruption_cell_stability`: a cell `('O', expiry 1+2)` at
position 0, two calls at `t = 3/2` and `t = 2` rendering `00:00`. -/
theorem corruption_cell_stability_witness :
    (∀ out ∈ (Corrupt.corruptRun (fun j => if j = 0 then some ('O', (1 : ℚ) + 2) else none)
        [⟨(3 : ℚ)/2, fun _ c => c, fun _ => 1, ['0', '0', ':', '0', '0']⟩,
         ⟨2, fun _ c => c, fun _ => 1, ['0', '0', ':', '0', '0']⟩]).1,
        out.get? 0 = some 'O') ∧
      (Corrupt.corruptRun (fun j => if j = 0 then some ('O', (1 : ℚ) + 2) else none)
        [⟨(3 : ℚ)/2, fun _ c => c, fun _ => 1, ['0', '0', ':', '0', '0']⟩,
         ⟨2, fun _ c => c, fun _ => 1, ['0', '0', ':', '0', '0']⟩]).2 0 =
        some ('O', (1 : ℚ) + 2) := by
  refine corruption_cell_stability 0 'O' 1 2 _ _ rfl ?_ ?_ ?_
  · simp only [List.chain'_cons, List.chain'_singleton, and_true]
    norm_num
  · intro fc hfc
    rcases List.mem_cons.mp hfc with h | h
    · subst h; constructor <;> norm_num
    · simp only [List.mem_singleton] at h; subst h; constructor <;> norm_num
  · intro fc hfc
    rcases List.mem_cons.mp hfc with h | h
    · subst h; simp
    · simp only [List.mem_singleton] at h; subst h; simp

/-- C8 counterexample: a duplicate call at the same `t = 0` on the same
state can return a different string: positions without a live cell re-draw
randomness on every call (here the second call's draw corrupts position 0
while the first call's draw corrupted nothing). -/
theorem frame_duplicate_counterexample :
    (Corrupt.corruptString (fun i c => if i = 0 then 'O' else c) (fun _ => 1) 0 0
        (Corrupt.corruptString (fun _ c => c) (fun _ => 1) 0 0 (fun _ => none)
          ['0', '0', ':', '0', '0']).2 ['0', '0', ':', '0', '0']).1 ≠
      (Corrupt.corruptString (fun _ c => c) (fun _ => 1) 0 0 (fun _ => none)
        ['0', '0', ':', '0', '0']).1 := by
  decide

/-- C8 amended: a duplicate frame call at an unchanged `t` leaves the Warp
State unchanged (`dt = 0`) and re-renders the identical glyph at every
position holding a live corruption cell; only positions without a live
cell consult fresh randomness (and may therefore differ, see the
counterexample). -/
theorem frame_duplicate_stability (dur t : ℚ) (a : ℝ) (st : Corrupt.St) (i : ℕ)
    (g : Char) (e : ℚ) (d1 d2 : ℕ → Char → Char) (u1 u2 : ℕ → ℚ) (chars : List Char)
    (hcell : st i = some (g, e)) (ht : t < e) (hlen : i < chars.length) :
    Weird.warpStep dur ⟨t, a⟩ t = ⟨t, a⟩ ∧
      (Corrupt.corruptString d1 u1 t 0 st chars).1.get? i = some g ∧
      (Corrupt.corruptString d2 u2 t 0
        (Corrupt.corruptString d1 u1 t 0 st chars).2 chars).1.get? i = some g := by
  have h1 := corruptString_live d1 u1 t g e ht chars 0 i st (by simpa using hcell) hlen
  have h2 := corruptString_live d2 u2 t g e ht chars 0 i _ (by simpa using h1.2) hlen
  refine ⟨?_, h1.1, h2.1⟩
  simp only [Weird.warpStep, Weird.WarpState.mk.injEq]
  refine ⟨trivial, ?_⟩
  push_cast
  ring

/-- Witness for `frame_duplicate_stability`: live cell `('O', expiry 3)` at
position 0, duplicate calls at `t = 1` with differing draw oracles. -/
theorem frame_duplicate_stability_witness :
    Weird.warpStep 60 ⟨1, 42⟩ 1 = ⟨1, 42⟩ ∧
      (Corrupt.corruptString (fun _ c => c) (fun _ => 1) 1 0
        (fun j => if j = 0 then some ('O', (3 : ℚ)) else none)
        ['0', '0', ':', '0', '0']).1.get? 0 = some 'O' ∧
      (Corrupt.corruptString (fun i c => if i = 0 then 'O' else c) (fun _ => 1) 1 0
        (Corrupt.corruptString (fun _ c => c) (fun _ => 1) 1 0
          (fun j => if j = 0 then some ('O', (3 : ℚ)) else none)
          ['0', '0', ':', '0', '0']).2 ['0', '0', ':', '0', '0']).1.get? 0 = some 'O' :=
  frame_duplicate_stability 60 1 42 _ 0 'O' 3 _ _ _ _ _ rfl (by norm_num) (by simp)

/-- Helper: the whole animation-trigger loop is a no-op while an animation
is active (the loop condition requires `animation_mode is None`). -/
theorem processAnimTriggers_active (animTimes : List ℚ) (cm : Anim.Mode) (cd last t : ℚ)
    (st : Anim.AnimState) (m : Anim.Mode) (hm : st.mode = some m) :
    Anim.processAnimTriggers animTimes cm cd last t st = st := by
  induction animTimes with
  | nil => rfl
  | cons τ τs ih =>
      have hneg : ¬(last < τ ∧ τ ≤ t ∧ st.mode = none) := by
        rintro ⟨-, -, h⟩
        rw [hm] at h
        exact Option.noConfusion h
      simp only [Anim.processAnimTriggers, List.foldl_cons, if_neg hneg] at ih ⊢
      exact ih

/-- C5: at most one animation is active at a time: a trigger crossed while
an animation is active is dropped — the trigger loop leaves mode, start
and duration unchanged — and the active animation clears exactly when
`t - start > duration`. -/
theorem animation_exclusive (animTimes : List ℚ) (cm : Anim.Mode) (cd last t : ℚ)
    (st : Anim.AnimState) (m : Anim.Mode) (hm : st.mode = some m) :
    Anim.processAnimTriggers animTimes cm cd last t st = st ∧
      ((Anim.expireAnim t st).mode = none ↔ st.duration < t - st.start) ∧
      (¬ st.duration < t - st.start → Anim.expireAnim t st = st) := by
  refine ⟨processAnimTriggers_active animTimes cm cd last t st m hm, ?_, ?_⟩
  · by_cases hd : st.duration < t - st.start
    · simp [Anim.expireAnim, hm, hd]
    · simp [Anim.expireAnim, hm, hd]
  · intro hd
    simp [Anim.expireAnim, hd]

/-- Witness for `animation_exclusive`: an active wave animation at
`start = 8, duration = 5`, a trigger at 10 crossed by the frame at 11. -/
theorem animation_exclusive_witness :
    Anim.processAnimTriggers [10] Anim.Mode.wave 3 9 11 ⟨some Anim.Mode.wave, 8, 5⟩ =
        ⟨some Anim.Mode.wave, 8, 5⟩ ∧
      ((Anim.expireAnim 11 ⟨some Anim.Mode.wave, 8, 5⟩).mode = none ↔ (5 : ℚ) < 11 - 8) ∧
      (¬ (5 : ℚ) < 11 - 8 → Anim.expireAnim 11 ⟨some Anim.Mode.wave, 8, 5⟩ =
        ⟨some Anim.Mode.wave, 8, 5⟩) :=
  animation_exclusive [10] Anim.Mode.wave 3 9 11 ⟨some Anim.Mode.wave, 8, 5⟩
    Anim.Mode.wave rfl

/-- Helper: once `last_t` has passed the trigger, the crossing test never
succeeds again on a non-decreasing sweep. -/
theorem crossCount_zero_of_ge (trig : ℚ) (ts : List ℚ) :
    ∀ last : ℚ, trig ≤ last → List.Chain' (· ≤ ·) (last :: ts) →
      Anim.crossCount trig last ts = 0 := by
  induction ts with
  | nil => intro last _ _; rfl
  | cons t ts ih =>
      intro last hge hch
      rw [List.chain'_cons] at hch
      simp only [Anim.crossCount]
      rw [if_neg (by rintro ⟨h, -⟩; linarith), zero_add]
      exact ih t (le_trans hge hch.1) hch.2

/-- Helper: on a non-decreasing sweep that starts below the trigger and
reaches it, the crossing test succeeds exactly once. -/
theorem crossCount_eq_one (trig : ℚ) (ts : List ℚ) :
    ∀ last : ℚ, last < trig → (∃ u ∈ ts, trig ≤ u) →
      List.Chain' (· ≤ ·) (last :: ts) → Anim.crossCount trig last ts = 1 := by
  induction ts with
  | nil => intro last _ h _; simp at h
  | cons t ts ih =>
      intro last hlt hex hch
      rw [List.chain'_cons] at hch
      simp only [Anim.crossCount]
      by_cases hc : trig ≤ t
      · rw [if_pos ⟨hlt, hc⟩, crossCount_zero_of_ge trig ts t hc hch.2]
      · rw [if_neg (by rintro ⟨-, h⟩; exact hc h), zero_add]
        refine ih t (lt_of_not_le hc) ?_ hch.2
        rcases hex with ⟨u, hu, hgu⟩
        rcases List.mem_cons.mp hu with h | h
        · exact absurd (h ▸ hgu) hc
        · exact ⟨u, h, hgu⟩

/-- Helper: the instrumented trigger loop only fires indices at or above
its start index. -/
theorem animFired_ge (cm : Anim.Mode) (cd last t : ℚ) (τs : List ℚ) :
    ∀ (i0 : ℕ) (st : Anim.AnimState) (j : ℕ),
      j ∈ (Anim.animTriggersFiredGo cm cd last t i0 st τs).2 → i0 ≤ j := by
  induction τs with
  | nil => intro i0 st j hj; simp [Anim.animTriggersFiredGo] at hj
  | cons τ τs ih =>
      intro i0 st j hj
      simp only [Anim.animTriggersFiredGo] at hj
      split_ifs at hj with hc
      · rcases List.mem_cons.mp hj with h | h
        · omega
        · have := ih (i0 + 1) _ j h
          omega
      · have := ih (i0 + 1) st j hj
        omega

/-- Helper: within one frame call, trigger `k` fires at most once, and only
if its timestamp is crossed by this call. -/
theorem animFired_count_le (cm : Anim.Mode) (cd last t : ℚ) (τs : List ℚ) :
    ∀ (i0 k : ℕ) (st : Anim.AnimState),
      ((Anim.animTriggersFiredGo cm cd last t i0 st τs).2.count (i0 + k)) ≤
        (if last < τs.getD k 0 ∧ τs.getD k 0 ≤ t then 1 else 0) := by
  induction τs with
  | nil =>
      intro i0 k st
      simp only [Anim.animTriggersFiredGo, List.count_nil]
      exact Nat.zero_le _
  | cons τ τs ih =>
      intro i0 k st
      cases k with
      | zero =>
          simp only [List.getD_cons_zero, Nat.add_zero]
          by_cases hc : last < τ ∧ τ ≤ t ∧ st.mode = none
          · simp only [Anim.animTriggersFiredGo, if_pos hc, List.count_cons_self]
            have hz : ((Anim.animTriggersFiredGo cm cd last t (i0 + 1)
                { mode := some cm, start := t, duration := cd } τs).2.count i0) = 0 := by
              refine List.count_eq_zero.mpr fun hmem => ?_
              have := animFired_ge cm cd last t τs (i0 + 1) _ i0 hmem
              omega
            rw [hz, if_pos ⟨hc.1, hc.2.1⟩]
          · simp only [Anim.animTriggersFiredGo, if_neg hc]
            have hz : ((Anim.animTriggersFiredGo cm cd last t (i0 + 1) st τs).2.count i0) = 0 := by
              refine List.count_eq_zero.mpr fun hmem => ?_
              have := animFired_ge cm cd last t τs (i0 + 1) st i0 hmem
              omega
            rw [hz]
            exact Nat.zero_le _
      | succ k =>
          simp only [List.getD_cons_succ]
          by_cases hc : last < τ ∧ τ ≤ t ∧ st.mode = none
          · simp only [Anim.animTriggersFiredGo, if_pos hc]
            rw [List.count_cons_of_ne (by omega)]
            have := ih (i0 + 1) k { mode := some cm, start := t, duration := cd }
            rw [show i0 + 1 + k = i0 + (k + 1) by omega] at this
            exact this
          · simp only [Anim.animTriggersFiredGo, if_neg hc]
            have := ih (i0 + 1) k st
            rw [show i0 + 1 + k = i0 + (k + 1) by omega] at this
            exact this

/-- Helper: across a whole replayed run, trigger `k` fires at most as often
as its timestamp is crossed. -/
theorem animRun_count_le (animTimes : List ℚ) (k : ℕ) (calls : List Anim.AnimCall) :
    ∀ (last : ℚ) (st : Anim.AnimState),
      ((Anim.animRun animTimes last st calls).2.count k) ≤
        Anim.crossCount (animTimes.getD k 0) last (calls.map (fun c => c.t)) := by
  induction calls with
  | nil =>
      intro last st
      simp [Anim.animRun, Anim.crossCount]
  | cons c cs ih =>
      intro last st
      simp only [Anim.animRun, List.map_cons, Anim.crossCount, List.count_append]
      have h1 := animFired_count_le c.cm c.cd last c.t animTimes 0 k st
      rw [Nat.zero_add] at h1
      have h2 := ih c.t (Anim.expireAnim c.t
        (Anim.animTriggersFiredGo c.cm c.cd last c.t 0 st animTimes).1)
      exact Nat.add_le_add h1 h2

/-- C6 counterexample: with animation schedule `[10, 11]` and the monotone
full sweep `10, 11, 120` (initial `last_t = 0`), the second scheduled
animation trigger is crossed at the frame `t = 11` but never fires — an
animation started by the first trigger is still active — refuting that
every scheduled trigger fires exactly once. -/
theorem trigger_every_fire_counterexample :
    List.Chain' (· ≤ ·) [(0 : ℚ), 10, 11, 120] ∧
      ((10 : ℚ) < 11 ∧ (11 : ℚ) ≤ 11) ∧
      ((Anim.animRun [10, 11] 0 ⟨none, 0, 0⟩
        [⟨10, Anim.Mode.wave, 3⟩, ⟨11, Anim.Mode.wave, 3⟩,
         ⟨120, Anim.Mode.wave, 3⟩]).2.count 1) = 0 := by
  refine ⟨?_, ⟨by norm_num, le_refl _⟩, ?_⟩
  · simp only [List.chain'_cons, List.chain'_singleton, and_true]
    norm_num
  · norm_num [Anim.animRun, Anim.animTriggersFiredGo, Anim.expireAnim,
      List.count_cons, Option.some_ne_none]

/-- C6 amended: on a monotone sweep that starts below a trigger and
reaches it, the crossing test `last_t < trigger ≤ t` succeeds exactly once;
a jump trigger therefore fires exactly once (its loop body is exactly the
crossing test), while an animation trigger fires at most once — it can be
dropped entirely if an animation is active at its crossing frame. -/
theorem triggers_fire_at_most_once (animTimes : List ℚ) (k : ℕ) (trig last : ℚ)
    (calls : List Anim.AnimCall) (st : Anim.AnimState)
    (htrig : animTimes.getD k 0 = trig)
    (hchain : List.Chain' (· ≤ ·) (last :: calls.map (fun c => c.t)))
    (hlow : last < trig) (hhigh : ∃ u ∈ calls.map (fun c => c.t), trig ≤ u) :
    Anim.crossCount trig last (calls.map (fun c => c.t)) = 1 ∧
      ((Anim.animRun animTimes last st calls).2.count k) ≤ 1 ∧
      (∀ (v : ℚ) (acc : ℝ) (lastf tf : ℚ),
        Weird.processJumps [(trig, v)] lastf tf acc =
          if lastf < trig ∧ trig ≤ tf then (v : ℝ) else acc) := by
  have hone := crossCount_eq_one trig (calls.map (fun c => c.t)) last hlow hhigh hchain
  refine ⟨hone, ?_, ?_⟩
  · have hle := animRun_count_le animTimes k calls last st
    rw [htrig, hone] at hle
    exact hle
  · intro v acc lastf tf
    simp [Weird.processJumps]

/-- Witness for `triggers_fire_at_most_once`: schedule `[10, 11]`,
trigger 10, sweep `10, 11, 120` from `last_t = 0`. -/
theorem triggers_fire_at_most_once_witness :
    Anim.crossCount 10 0 ([⟨10, Anim.Mode.wave, 3⟩, ⟨11, Anim.Mode.wave, 3⟩,
        ⟨120, Anim.Mode.wave, 3⟩].map (fun c : Anim.AnimCall => c.t)) = 1 ∧
      ((Anim.animRun [10, 11] 0 ⟨none, 0, 0⟩
        [⟨10, Anim.Mode.wave, 3⟩, ⟨11, Anim.Mode.wave, 3⟩,
         ⟨120, Anim.Mode.wave, 3⟩]).2.count 0) ≤ 1 := by
  have h := triggers_fire_at_most_once [10, 11] 0 10 0
    [⟨10, Anim.Mode.wave, 3⟩, ⟨11, Anim.Mode.wave, 3⟩, ⟨120, Anim.Mode.wave, 3⟩]
    ⟨none, 0, 0⟩ rfl
    (by simp only [List.map_cons, List.map_nil, List.chain'_cons,
          List.chain'_singleton, and_true]
        norm_num)
    (by norm_num) ⟨10, by simp, le_refl 10⟩
  exact ⟨h.1, h.2.1⟩

/-- Helper: a list of length five is a five-element list. -/
theorem list_length_five (l : List Char) (h : l.length = 5) :
    ∃ a b c d e, l = [a, b, c, d, e] := by
  rcases l with - | ⟨a, l⟩
  · simp at h
  rcases l with - | ⟨b, l⟩
  · simp at h
  rcases l with - | ⟨c, l⟩
  · simp at h
  rcases l with - | ⟨d, l⟩
  · simp at h
  rcases l with - | ⟨e, l⟩
  · simp at h
  rcases l with - | ⟨f, l⟩
  · exact ⟨a, b, c, d, e, rfl⟩
  · simp [List.length_cons] at h

/-- Helper: the Python float modulus on rationals lies in `[0, y)` for a
positive modulus. -/
theorem pyModQ_bounds (x y : ℚ) (hy : 0 < y) :
    0 ≤ Anim.pyModQ x y ∧ Anim.pyModQ x y < y := by
  have h1 : (⌊x / y⌋ : ℚ) * y ≤ x := (le_div_iff hy).mp (Int.floor_le _)
  have h2 : x < ((⌊x / y⌋ : ℚ) + 1) * y := (div_lt_iff hy).mp (Int.lt_floor_add_one _)
  constructor
  · simp only [Anim.pyModQ]
    nlinarith
  · simp only [Anim.pyModQ]
    nlinarith

/-- Helper: every entry of the snake pattern table has five cells. -/
theorem snakePatterns_length : ∀ n : ℕ, n ≤ 10 → (Anim.snakePatterns.getD n []).length = 5 := by
  decide

/-- Helper: `f"{n:02d}"` has exactly two characters for `n ≤ 59`. -/
theorem padTwo_length : ∀ n : ℕ, n ≤ 59 → (Anim.padTwo n).length = 2 := by
  decide

/-- Helper: `format_time` of a whole number of seconds below a minute is a
five-cell `00:SS` string with the separator at index 2. -/
theorem format_time_small (s : ℕ) (h : s ≤ 59) :
    (Anim.format_time (s : ℚ)).length = 5 ∧ (Anim.format_time (s : ℚ)).get? 2 = some ':' := by
  have hfl : ⌊(s : ℚ) / 60⌋ = 0 := by
    rw [Int.floor_eq_zero_iff, Set.mem_Ico]
    constructor
    · positivity
    · rw [div_lt_one (by norm_num : (0 : ℚ) < 60)]
      exact_mod_cast lt_of_le_of_lt h (by norm_num)
  have hmod : Anim.pyModQ (s : ℚ) 60 = (s : ℚ) := by
    simp [Anim.pyModQ, hfl]
  have hft : Anim.format_time (s : ℚ) = Anim.padTwo 0 ++ [':'] ++ Anim.padTwo s := by
    simp [Anim.format_time, hfl, hmod, Int.floor_natCast]
  rw [hft]
  have hp0 : Anim.padTwo 0 = ['0', '0'] := rfl
  rw [hp0]
  refine ⟨?_, rfl⟩
  simp [padTwo_length s h]

/-- C7 counterexample: the segment-snake overlay at `t = 0` produces the
pattern `-   -`, whose cell at the separator position 2 is a blank, not the
verbatim `:` the claim promises for every animation mode. -/
theorem animation_separator_counterexample :
    (Anim.animate_segments_snake 0).length = 5 ∧
      (Anim.animate_segments_snake 0).get? 2 = some ' ' ∧
      ¬ (Anim.animate_segments_snake 0).get? 2 = some ':' := by
  have h : Anim.animate_segments_snake 0 = ['-', ' ', ' ', ' ', '-'] := by
    norm_num [Anim.animate_segments_snake, Anim.pyModQ, Anim.snakePatterns, Int.floor_zero]
  rw [h]
  refine ⟨rfl, rfl, by decide⟩

/-- C7 amended: for a five-cell `MM:SS` base string and an animation
progress in `[0,1]`, every one of the seven overlay modes produces a
replacement string of the same cell count (5); the separator `:` is
preserved verbatim at its position by the wave, odd/even, count-up and
spinning modes — but not, in general, by segment-snake, lightning, or the
mid-reveal phase of all-eights (see the counterexample). -/
theorem animation_overlay_shape (base : List Char) (p t : ℚ)
    (hlen : base.length = 5) (hsep : base.get? 2 = some ':')
    (hp0 : 0 ≤ p) (hp1 : p ≤ 1) :
    (Anim.animate_digit_wave base p).length = 5 ∧
      (Anim.animate_odd_even base p).length = 5 ∧
      (Anim.animate_all_eights p base).length = 5 ∧
      (Anim.animate_segments_snake t).length = 5 ∧
      (Anim.animate_lightning p base).length = 5 ∧
      (Anim.animate_count_up p).length = 5 ∧
      (Anim.animate_spinning_digits p base).length = 5 ∧
      (Anim.animate_digit_wave base p).get? 2 = some ':' ∧
      (Anim.animate_odd_even base p).get? 2 = some ':' ∧
      (Anim.animate_count_up p).get? 2 = some ':' ∧
      (Anim.animate_spinning_digits p base).get? 2 = some ':' := by
  obtain ⟨a, b, c, d, e, rfl⟩ := list_length_five base hlen
  have hc : c = ':' := by simpa using hsep
  subst hc
  have hcount : Int.toNat ⌊p * 30⌋ ≤ 59 := by
    have hle : p * 30 ≤ 30 := by nlinarith
    have : ⌊p * 30⌋ ≤ 30 := by
      calc ⌊p * 30⌋ ≤ ⌊(30 : ℚ)⌋ := Int.floor_le_floor hle
        _ = 30 := by norm_num
    omega
  have hcu := format_time_small (Int.toNat ⌊p * 30⌋) hcount
  refine ⟨?_, ?_, ?_, ?_, ?_, ?_, ?_, ?_, ?_, ?_, ?_⟩
  · simp [Anim.animate_digit_wave]
  · simp [Anim.animate_odd_even]
  · simp only [Anim.animate_all_eights]
    split_ifs with h1 h2
    · rfl
    · have hrev : Int.toNat ⌊(p - 0.4) / 0.3 * (([a, b, ':', d, e] : List Char).length : ℚ)⌋ ≤ 5 := by
        have hlt : (p - 0.4) / 0.3 * (([a, b, ':', d, e] : List Char).length : ℚ) < 5 := by
          simp only [List.length_cons, List.length_nil]
          push_cast
          rw [div_mul_eq_mul_div, div_lt_iff (by norm_num : (0 : ℚ) < 0.3)]
          push_neg at h1
          nlinarith
        have : ⌊(p - 0.4) / 0.3 * (([a, b, ':', d, e] : List Char).length : ℚ)⌋ < 5 := by
          exact_mod_cast Int.floor_lt.mpr (by exact_mod_cast hlt)
        omega
      simp only [List.length_append, List.length_take, List.length_replicate,
        List.length_cons, List.length_nil]
      omega
    · rfl
  · have hb := pyModQ_bounds (t * 3) 11 (by norm_num)
    have hidx : Int.toNat ⌊Anim.pyModQ (t * 3) 11⌋ ≤ 10 := by
      have : ⌊Anim.pyModQ (t * 3) 11⌋ < 11 := Int.floor_lt.mpr (by exact_mod_cast hb.2)
      omega
    exact snakePatterns_length _ hidx
  · simp only [Anim.animate_lightning]
    split_ifs <;> rfl
  · exact hcu.1
  · simp [Anim.animate_spinning_digits]
  · simp [Anim.animate_digit_wave, List.mapIdx_cons]
  · simp [Anim.animate_odd_even, List.mapIdx_cons]
  · exact hcu.2
  · simp [Anim.animate_spinning_digits, List.mapIdx_cons]

/-- Witness for `animation_overlay_shape` at base `12:34`, `p = 1/2`,
`t = 7`. -/
theorem animation_overlay_shape_witness :
    (['1', '2', ':', '3', '4'] : List Char).length = 5 ∧
      ((0 : ℚ) ≤ 1/2 ∧ (1/2 : ℚ) ≤ 1) ∧
      (Anim.animate_digit_wave ['1', '2', ':', '3', '4'] (1/2)).length = 5 ∧
      (Anim.animate_all_eights (1/2) ['1', '2', ':', '3', '4']).length = 5 ∧
      (Anim.animate_segments_snake 7).length = 5 ∧
      (Anim.animate_count_up (1/2)).get? 2 = some ':' := by
  have h := animation_overlay_shape ['1', '2', ':', '3', '4'] (1/2) 7 rfl rfl
    (by norm_num) (by norm_num)
  exact ⟨rfl, ⟨by norm_num, by norm_num⟩, h.1, h.2.2.1, h.2.2.2.1, h.2.2.2.2.2.2.2.2.2.1⟩

end TempusFugit
